import Mathlib

/-!
Verification of the interior-node update engine of bcachefs
(src/libbcachefs/btree_update_interior.c) against its natural-language
specification.

Keys are modelled as natural numbers standing for `struct bpos` values, with
`bkey_successor` as `Nat.succ`.  A packed key in a bset is modelled by its
size in u64s, its position, and its whiteout (deleted) bit.  Machine pointer
and list manipulation is modelled with explicit lists and records.
-/

/-- A packed key inside a bset: its width in u64s (`k->u64s`), its position
(`k->p`) and whether it is a whiteout (`bkey_deleted`). -/
structure PKey where
  u64s : Nat
  pos : Nat
  deleted : Bool
deriving DecidableEq

/-- A btree node as the split path sees it: its range and the keys of its
single bset, in bset order. -/
structure SNode where
  minKey : Nat
  maxKey : Nat
  keys : List PKey
deriving DecidableEq

/-- Total u64s of a bset (`le16_to_cpu(set1->u64s)`). -/
def bsetU64s (ks : List PKey) : Nat :=
  (ks.map PKey.u64s).sum

/-- The cursor walk of `__btree_split_node` (btree_update_interior.c:1071-1087):
starting at u64 offset `off`, the loop keeps key `k` in the lower node while
`k` is not the last key and `k`'s offset is below `thr`; the remainder goes to
the higher node.  Returns (keys kept in `n1`, keys moved to `n2`). -/
def splitKeys (thr : Nat) : Nat → List PKey → List PKey × List PKey
  | _, [] => ([], [])
  | _, [k] => ([], [k])
  | off, k :: k2 :: ks =>
    if thr ≤ off then
      ([], k :: k2 :: ks)
    else
      let p := splitKeys thr (off + k.u64s) (k2 :: ks)
      (k :: p.1, p.2)

/-- Index at which the cursor of `__btree_split_node` stops: the number of keys
kept in the lower node. -/
def stopIdx (thr : Nat) : Nat → List PKey → Nat
  | _, [] => 0
  | _, [_] => 0
  | off, k :: k2 :: ks =>
    if thr ≤ off then 0
    else stopIdx thr (off + k.u64s) (k2 :: ks) + 1

/-- Number of keys in the maximal prefix whose u64 start offset is below
`thr`. -/
def belowCount (thr : Nat) : Nat → List PKey → Nat
  | _, [] => 0
  | off, k :: ks =>
    if off < thr then belowCount thr (off + k.u64s) ks + 1 else 0

/-- The effect of `__btree_split_node` (btree_update_interior.c:1045-1129) on
ranges and keys: choose the pivot `prev`, set `n1.max_key` to the pivot's
position, `n2.min_key` to its successor, keep `n2.max_key = n1.max_key`
(copied at lines 1057-1060 before `n1` is trimmed), and move the keys from the
stop key onward into `n2`.  `none` models the `BUG_ON(!prev)` at line 1089. -/
def btree_split_node (n1 : SNode) : Option (SNode × SNode) :=
  match (splitKeys (bsetU64s n1.keys * 3 / 5) 0 n1.keys).1.getLast? with
  | none => none
  | some prev =>
    some ({ n1 with maxKey := prev.pos,
                    keys := (splitKeys (bsetU64s n1.keys * 3 / 5) 0 n1.keys).1 },
          { minKey := prev.pos + 1, maxKey := n1.maxKey,
            keys := (splitKeys (bsetU64s n1.keys * 3 / 5) 0 n1.keys).2 })

theorem splitKeys_eq_take_drop (thr : Nat) :
    ∀ (ks : List PKey) (off : Nat),
      splitKeys thr off ks = (ks.take (stopIdx thr off ks), ks.drop (stopIdx thr off ks)) := by
  intro ks
  induction ks with
  | nil => intro off; rfl
  | cons k ks ih =>
    intro off
    cases ks with
    | nil => rfl
    | cons k2 ks2 =>
      by_cases h : thr ≤ off
      · simp [splitKeys, stopIdx, h]
      · simp only [splitKeys, stopIdx, h, if_neg, if_false, List.tail_cons]
        rw [ih (off + k.u64s)]
        simp [List.take_succ_cons, List.drop_succ_cons]

theorem stopIdx_eq_min (thr : Nat) :
    ∀ (ks : List PKey) (off : Nat),
      stopIdx thr off ks = min (belowCount thr off ks) (ks.length - 1) := by
  intro ks
  induction ks with
  | nil => intro off; rfl
  | cons k ks ih =>
    intro off
    cases ks with
    | nil =>
      simp [stopIdx, belowCount]
    | cons k2 ks2 =>
      by_cases h : thr ≤ off
      · have h2 : ¬ off < thr := by omega
        simp [stopIdx, belowCount, h, h2]
      · have h2 : off < thr := by omega
        have hb : belowCount thr off (k :: k2 :: ks2)
            = belowCount thr (off + k.u64s) (k2 :: ks2) + 1 := by
          simp [belowCount, h2]
        have hs : stopIdx thr off (k :: k2 :: ks2)
            = stopIdx thr (off + k.u64s) (k2 :: ks2) + 1 := by
          simp [stopIdx, h]
        rw [hb, hs, ih (off + k.u64s)]
        have hlen : (k2 :: ks2).length = ks2.length + 1 := rfl
        simp only [List.length_cons]
        omega

theorem belowCount_pos (thr : Nat) (k : PKey) (ks : List PKey) (h : 0 < thr) :
    1 ≤ belowCount thr 0 (k :: ks) := by
  simp [belowCount, h]

theorem le_bsetU64s_of_sizes (ks : List PKey) (h : ∀ k ∈ ks, 1 ≤ k.u64s) :
    ks.length ≤ bsetU64s ks := by
  induction ks with
  | nil => simp [bsetU64s]
  | cons k ks ih =>
    have h1 := h k (by simp)
    have h2 : ks.length ≤ bsetU64s ks := ih (fun x hx => h x (by simp [hx]))
    simp only [bsetU64s, List.map_cons, List.sum_cons, List.length_cons]
    simp only [bsetU64s] at h2
    omega

/-- The full characterization of `__btree_split_node`, shared by the claims
about splitting: the cursor stops at index
`min (belowCount thr 0 keys) (length - 1)`, the pivot is the key just before
the stop index, and ranges are set from the pivot. -/
theorem split_node_spec (n : SNode) (h2 : 2 ≤ n.keys.length)
    (h1 : ∀ k ∈ n.keys, 1 ≤ k.u64s) :
    ∃ n1 n2 p,
      btree_split_node n = some (n1, n2) ∧
      n1.keys = n.keys.take (stopIdx (bsetU64s n.keys * 3 / 5) 0 n.keys) ∧
      n2.keys = n.keys.drop (stopIdx (bsetU64s n.keys * 3 / 5) 0 n.keys) ∧
      n1.keys ≠ [] ∧ n2.keys ≠ [] ∧
      n1.keys.getLast? = some p ∧
      n1.minKey = n.minKey ∧ n1.maxKey = p.pos ∧
      n2.minKey = p.pos + 1 ∧ n2.maxKey = n.maxKey := by
  set thr := bsetU64s n.keys * 3 / 5 with hthr
  set m := stopIdx thr 0 n.keys with hm
  have hsum : n.keys.length ≤ bsetU64s n.keys := le_bsetU64s_of_sizes n.keys h1
  have hthrpos : 1 ≤ thr := by rw [hthr]; omega
  have hmin : m = min (belowCount thr 0 n.keys) (n.keys.length - 1) :=
    stopIdx_eq_min thr n.keys 0
  have hbc : 1 ≤ belowCount thr 0 n.keys := by
    cases hk : n.keys with
    | nil => simp [hk] at h2
    | cons k ks => exact belowCount_pos thr k ks (by omega)
  have hm1 : 1 ≤ m := by omega
  have hmlt : m < n.keys.length := by omega
  have htake_len : (n.keys.take m).length = m := by
    rw [List.length_take]; omega
  have hdrop_len : (n.keys.drop m).length = n.keys.length - m := by
    rw [List.length_drop]
  have htake_ne : n.keys.take m ≠ [] := by
    intro habs
    rw [habs] at htake_len
    simp at htake_len
    omega
  have hdrop_ne : n.keys.drop m ≠ [] := by
    intro habs
    rw [habs] at hdrop_len
    simp at hdrop_len
    omega
  have hlast : ∃ p, (n.keys.take m).getLast? = some p := by
    cases hp : (n.keys.take m).getLast? with
    | none => exact absurd (List.getLast?_eq_none_iff.mp hp) htake_ne
    | some p => exact ⟨p, rfl⟩
  obtain ⟨p, hp⟩ := hlast
  have hsk : splitKeys thr 0 n.keys = (n.keys.take m, n.keys.drop m) := by
    rw [splitKeys_eq_take_drop, ← hm]
  refine ⟨{ n with maxKey := p.pos, keys := n.keys.take m },
          { minKey := p.pos + 1, maxKey := n.maxKey, keys := n.keys.drop m }, p,
          ?_, rfl, rfl, htake_ne, hdrop_ne, hp, rfl, rfl, rfl, rfl⟩
  unfold btree_split_node
  rw [← hthr, hsk]
  simp [hp]

/-- The pivot chooser exactly as the spec words it, for comparison with the
source: the first key of the bset whose u64 offset is at or past
`⌊3·u64s/5⌋` (none if no key is past that offset).  This definition follows
the spec sentence, not the source. -/
def spec_first_key_past (thr : Nat) : Nat → List PKey → Option PKey
  | _, [] => none
  | off, k :: ks =>
    if thr ≤ off then some k else spec_first_key_past thr (off + k.u64s) ks

/-- Example bset: five keys of one u64 each at positions 10..50.  Total u64s
is 5, so the threshold `⌊3·5/5⌋` is 3 and the first key at or past offset 3
is the key at position 40, while the source picks the key at position 30 as
pivot. -/
def ksA : List PKey :=
  [⟨1, 10, false⟩, ⟨1, 20, false⟩, ⟨1, 30, false⟩, ⟨1, 40, false⟩, ⟨1, 50, false⟩]

/-- Example bset: a one-u64 key at position 10 followed by a ten-u64 key at
position 20.  Total u64s is 11, the threshold is 6, and no key starts at or
past offset 6, yet the source still splits, picking position 10 as pivot. -/
def ksB : List PKey :=
  [⟨1, 10, false⟩, ⟨10, 20, false⟩]

/-- C3, counterexample: the claim says the pivot is "the first key past
`⌊3·u64s/5⌋` of the bset (by u64 offset)" and that `n1.max_key` becomes that
key's position.  On `ksA` that key is the one at position 40, but
`__btree_split_node` sets `n1.max_key = 30` (it uses `prev`, the key before
the cursor's stop key).  On `ksB` no key is at or past the threshold at all,
yet the split still succeeds with pivot position 10. -/
theorem c3_counterexample :
    spec_first_key_past (bsetU64s ksA * 3 / 5) 0 ksA = some ⟨1, 40, false⟩ ∧
    (btree_split_node ⟨0, 100, ksA⟩).map (fun q => q.1.maxKey) = some 30 ∧
    spec_first_key_past (bsetU64s ksB * 3 / 5) 0 ksB = none ∧
    (btree_split_node ⟨0, 100, ksB⟩).map (fun q => q.1.maxKey) = some 10 := by
  refine ⟨rfl, rfl, rfl, rfl⟩

/-- C3 (amended): for a node with at least two live keys in its single bset,
`__btree_split_node` keeps in `n1` exactly the keys before the cursor's stop
key - the first key at u64 offset `≥ ⌊3·u64s/5⌋`, or the final key if every
key starts below that - so the pivot is the last key kept; it sets
`n1.max_key` to the pivot's position, `n2.min_key` to its successor, and
moves exactly the keys from the stop key onward into `n2`. -/
theorem c3_split_pivot (n : SNode) (h2 : 2 ≤ n.keys.length)
    (h1 : ∀ k ∈ n.keys, 1 ≤ k.u64s) :
    ∃ n1 n2 p,
      btree_split_node n = some (n1, n2) ∧
      n1.keys = n.keys.take
        (min (belowCount (bsetU64s n.keys * 3 / 5) 0 n.keys) (n.keys.length - 1)) ∧
      n2.keys = n.keys.drop
        (min (belowCount (bsetU64s n.keys * 3 / 5) 0 n.keys) (n.keys.length - 1)) ∧
      n1.keys ++ n2.keys = n.keys ∧
      n1.keys ≠ [] ∧ n2.keys ≠ [] ∧
      n1.keys.getLast? = some p ∧
      n1.minKey = n.minKey ∧ n1.maxKey = p.pos ∧
      n2.minKey = p.pos + 1 ∧ n2.maxKey = n.maxKey := by
  obtain ⟨n1, n2, p, hsplit, hk1, hk2, hne1, hne2, hlast, hmn, hmx, h2mn, h2mx⟩ :=
    split_node_spec n h2 h1
  rw [stopIdx_eq_min] at hk1 hk2
  refine ⟨n1, n2, p, hsplit, hk1, hk2, ?_, hne1, hne2, hlast, hmn, hmx, h2mn, h2mx⟩
  rw [hk1, hk2, List.take_append_drop]

theorem c3_split_pivot_witness :
    (2 ≤ ksA.length ∧ (∀ k ∈ ksA, 1 ≤ k.u64s)) ∧
    ∃ n1 n2 p,
      btree_split_node ⟨0, 100, ksA⟩ = some (n1, n2) ∧
      n1.keys = ksA.take
        (min (belowCount (bsetU64s ksA * 3 / 5) 0 ksA) (ksA.length - 1)) ∧
      n2.keys = ksA.drop
        (min (belowCount (bsetU64s ksA * 3 / 5) 0 ksA) (ksA.length - 1)) ∧
      n1.keys ++ n2.keys = ksA ∧
      n1.keys ≠ [] ∧ n2.keys ≠ [] ∧
      n1.keys.getLast? = some p ∧
      n1.minKey = 0 ∧ n1.maxKey = p.pos ∧
      n2.minKey = p.pos + 1 ∧ n2.maxKey = 100 :=
  ⟨⟨by decide, by decide⟩, c3_split_pivot ⟨0, 100, ksA⟩ (by decide) (by decide)⟩

/-- Whiteout compaction performed by `btree_split_insert_keys`
(btree_update_interior.c:1167-1178) on the node about to be split: all
deleted keys are squeezed out of the bset.  The rewrite/replacement path
reaches the same state through `bch2_btree_sort_into`, which drops
whiteouts. -/
def compactWhiteouts (ks : List PKey) : List PKey :=
  ks.filter (fun k => !k.deleted)

/-- C5: whiteouts are compacted out of the bset before the pivot is chosen,
so the pivot key - the key whose position becomes `n1.max_key` - is never a
whiteout, and in fact no key of either resulting node is a whiteout. -/
theorem c5_pivot_not_whiteout (ks0 : List PKey) (mn mx : Nat)
    (h2 : 2 ≤ (compactWhiteouts ks0).length)
    (h1 : ∀ k ∈ compactWhiteouts ks0, 1 ≤ k.u64s) :
    ∃ n1 n2 p,
      btree_split_node ⟨mn, mx, compactWhiteouts ks0⟩ = some (n1, n2) ∧
      n1.keys.getLast? = some p ∧ n1.maxKey = p.pos ∧ p.deleted = false ∧
      (∀ k ∈ n1.keys, k.deleted = false) ∧ (∀ k ∈ n2.keys, k.deleted = false) := by
  obtain ⟨n1, n2, p, hsplit, hk1, hk2, hne1, hne2, hlast, hmn, hmx, h2mn, h2mx⟩ :=
    split_node_spec ⟨mn, mx, compactWhiteouts ks0⟩ h2 h1
  have hsub1 : ∀ k ∈ n1.keys, k ∈ compactWhiteouts ks0 := by
    intro k hk; rw [hk1] at hk; exact List.take_subset _ _ hk
  have hsub2 : ∀ k ∈ n2.keys, k ∈ compactWhiteouts ks0 := by
    intro k hk; rw [hk2] at hk; exact List.drop_subset _ _ hk
  have hdel : ∀ k ∈ compactWhiteouts ks0, k.deleted = false := by
    intro k hk
    have := List.of_mem_filter hk
    simpa using this
  have hpm : p ∈ n1.keys := by
    obtain ⟨hne, heq⟩ := List.mem_getLast?_eq_getLast (l := n1.keys) (x := p)
      (by simp [Option.mem_def, hlast])
    rw [heq]; exact List.getLast_mem hne
  exact ⟨n1, n2, p, hsplit, hlast, hmx, hdel p (hsub1 p hpm),
         fun k hk => hdel k (hsub1 k hk), fun k hk => hdel k (hsub2 k hk)⟩

/-- Example bset containing a whiteout at position 15. -/
def ksW : List PKey :=
  [⟨1, 10, false⟩, ⟨1, 15, true⟩, ⟨1, 20, false⟩, ⟨1, 30, false⟩,
   ⟨1, 40, false⟩, ⟨1, 50, false⟩]

theorem c5_pivot_not_whiteout_witness :
    (2 ≤ (compactWhiteouts ksW).length ∧ (∀ k ∈ compactWhiteouts ksW, 1 ≤ k.u64s)) ∧
    ∃ n1 n2 p,
      btree_split_node ⟨0, 100, compactWhiteouts ksW⟩ = some (n1, n2) ∧
      n1.keys.getLast? = some p ∧ n1.maxKey = p.pos ∧ p.deleted = false ∧
      (∀ k ∈ n1.keys, k.deleted = false) ∧ (∀ k ∈ n2.keys, k.deleted = false) :=
  ⟨⟨by decide, by decide⟩, c5_pivot_not_whiteout ksW 0 100 (by decide) (by decide)⟩

/-- A btree-pointer child entry of an interior node: the child's exact
`min_key` (carried by `btree_ptr_v2`) and its `max_key` (the pointer key's
position `k->p`). -/
structure ChildPtr where
  minKey : Nat
  maxKey : Nat
deriving DecidableEq

/-- Successor relation between consecutive children: the next child starts at
the successor of the previous child's `max_key`. -/
def childAfter (p q : ChildPtr) : Prop :=
  q.minKey = p.maxKey + 1

instance : DecidableRel childAfter :=
  fun p q => Nat.decEq q.minKey (p.maxKey + 1)

/-- Inner loop of `btree_node_interior_verify` (btree_update_interior.c:45-61):
`nx` is `next_node`; each child's `min_key` must equal `nx`, and the last
child's `max_key` must equal the node's `max_key`. -/
def interior_verify_go (bmax : Nat) : Nat → List ChildPtr → Bool
  | _, [] => true
  | nx, [c] => decide (nx = c.minKey) && decide (c.maxKey = bmax)
  | nx, c :: c2 :: cs =>
    decide (nx = c.minKey) && interior_verify_go bmax (c.maxKey + 1) (c2 :: cs)

/-- The checks of `btree_node_interior_verify`
(btree_update_interior.c:29-63) on the sequence of btree-pointer children of
an interior node with range `[bmin, bmax]`. -/
def btree_node_interior_verify (bmin bmax : Nat) (cs : List ChildPtr) : Bool :=
  interior_verify_go bmax bmin cs

/-- The range-cover property as the spec states it: the first child's
`min_key` is the node's `min_key`, the last child's `max_key` is the node's
`max_key`, and each successive child starts at the successor of its
predecessor's `max_key`. -/
def children_cover (bmin bmax : Nat) (cs : List ChildPtr) : Prop :=
  (∀ c, cs.head? = some c → c.minKey = bmin) ∧
  (∀ c, cs.getLast? = some c → c.maxKey = bmax) ∧
  List.Chain' childAfter cs

theorem interior_verify_go_iff (bmax : Nat) :
    ∀ (cs : List ChildPtr) (c : ChildPtr) (nx : Nat),
      interior_verify_go bmax nx (c :: cs) = true ↔
        (c.minKey = nx ∧ (∀ d, (c :: cs).getLast? = some d → d.maxKey = bmax) ∧
         List.Chain' childAfter (c :: cs)) := by
  intro cs
  induction cs with
  | nil =>
    intro c nx
    simp only [interior_verify_go, Bool.and_eq_true, decide_eq_true_eq,
      List.getLast?_singleton, List.chain'_singleton, Option.some.injEq, and_true]
    constructor
    · rintro ⟨h1, h2⟩
      refine ⟨h1.symm, ?_⟩
      intro d hd
      rw [← hd]
      exact h2
    · rintro ⟨h1, h2⟩
      exact ⟨h1.symm, h2 c rfl⟩
  | cons c2 cs2 ih =>
    intro c nx
    have h2 := ih c2 (c.maxKey + 1)
    simp only [interior_verify_go, Bool.and_eq_true, decide_eq_true_eq, h2,
      List.chain'_cons, List.getLast?_cons_cons]
    constructor
    · rintro ⟨h1, h3, h4, h5⟩
      exact ⟨h1.symm, h4, h3, h5⟩
    · rintro ⟨h1, h4, h3, h5⟩
      exact ⟨h1.symm, h3, h4, h5⟩

theorem head?_some_of_ne_nil {α : Type} (l : List α) (h : l ≠ []) :
    ∃ x, l.head? = some x := by
  cases l with
  | nil => exact absurd rfl h
  | cons a t => exact ⟨a, rfl⟩

theorem getLast?_some_of_ne_nil {α : Type} (l : List α) (h : l ≠ []) :
    ∃ x, l.getLast? = some x := by
  cases hx : l.getLast? with
  | none => exact absurd (List.getLast?_eq_none_iff.mp hx) h
  | some x => exact ⟨x, rfl⟩

/-- Replacing a consecutive run `old` of children by a run `mid` with the
same first `min_key`, the same last `max_key` and internally contiguous
ranges preserves the range-cover property of the parent.  This is the shape
of every parent mutation done by the engine: a rewrite or compacting split
replaces one child entry by one, a node split replaces one entry by two, and
a merge replaces two adjacent entries by one. -/
theorem children_cover_replace (bmin bmax : Nat) (l1 old mid l2 : List ChildPtr)
    (hold : old ≠ []) (hmid : mid ≠ [])
    (hmin : ∀ a b, old.head? = some a → mid.head? = some b → b.minKey = a.minKey)
    (hmax : ∀ a b, old.getLast? = some a → mid.getLast? = some b → b.maxKey = a.maxKey)
    (hchain : List.Chain' childAfter mid)
    (hcov : children_cover bmin bmax (l1 ++ old ++ l2)) :
    children_cover bmin bmax (l1 ++ mid ++ l2) := by
  obtain ⟨oh, hoh⟩ := head?_some_of_ne_nil old hold
  obtain ⟨ol, hol⟩ := getLast?_some_of_ne_nil old hold
  obtain ⟨mh, hmh⟩ := head?_some_of_ne_nil mid hmid
  obtain ⟨ml, hml⟩ := getLast?_some_of_ne_nil mid hmid
  have hminh : mh.minKey = oh.minKey := hmin oh mh hoh hmh
  have hmaxl : ml.maxKey = ol.maxKey := hmax ol ml hol hml
  rw [List.append_assoc] at hcov ⊢
  obtain ⟨hh, hl, hc⟩ := hcov
  obtain ⟨hcl1, hcrest, hb1⟩ := List.chain'_append.mp hc
  obtain ⟨hcold, hcl2, hb2⟩ := List.chain'_append.mp hcrest
  refine ⟨?_, ?_, ?_⟩
  · intro c hcp
    cases l1 with
    | nil =>
      rw [List.nil_append, List.head?_append_of_ne_nil mid hmid, hmh] at hcp
      have hob : oh.minKey = bmin := by
        refine hh oh ?_
        rw [List.nil_append, List.head?_append_of_ne_nil old hold]
        exact hoh
      cases hcp
      rw [hminh]
      exact hob
    | cons a t =>
      rw [List.cons_append, List.head?_cons] at hcp
      cases hcp
      exact hh c (by rw [List.cons_append, List.head?_cons])
  · intro c hcp
    cases hl2 : l2 with
    | nil =>
      subst hl2
      rw [List.append_nil, List.getLast?_append_of_ne_nil l1 hmid, hml] at hcp
      have hob : ol.maxKey = bmax := by
        refine hl ol ?_
        rw [List.append_nil, List.getLast?_append_of_ne_nil l1 hold]
        exact hol
      cases hcp
      rw [hmaxl]
      exact hob
    | cons a t =>
      subst hl2
      rw [← List.append_assoc, List.getLast?_append_of_ne_nil _ (List.cons_ne_nil a t)] at hcp
      refine hl c ?_
      rw [← List.append_assoc, List.getLast?_append_of_ne_nil _ (List.cons_ne_nil a t)]
      exact hcp
  · refine List.chain'_append.mpr ⟨hcl1, List.chain'_append.mpr ⟨hchain, hcl2, ?_⟩, ?_⟩
    · intro x hx y hy
      have hxml : x = ml := by
        rw [hml] at hx
        cases hx
        rfl
      subst hxml
      have := hb2 ol (by rw [hol]; rfl) y hy
      unfold childAfter at this ⊢
      rw [hmaxl]
      exact this
    · intro x hx y hy
      rw [List.head?_append_of_ne_nil mid hmid, hmh] at hy
      cases hy
      have := hb1 x hx oh (by rw [List.head?_append_of_ne_nil old hold, hoh]; rfl)
      unfold childAfter at this ⊢
      rw [hminh]
      exact this

/-- C1: the btree-pointer children of a live interior node cover
`[min_key, max_key]` contiguously with no gaps or overlaps.  First conjunct:
the checks of `btree_node_interior_verify` hold exactly when the children
satisfy the cover property (first child's `min_key` is the node's, each
successor child starts at the successor of its predecessor's `max_key`, last
child's `max_key` is the node's).  Second conjunct: every parent mutation
performed by the engine - replacing a consecutive run of child entries by a
run with the same outer boundaries and internally contiguous ranges, which
covers rewrite, split and merge insertions - preserves the cover property.
Third conjunct: the two nodes produced by `__btree_split_node` form such a
contiguous run covering the original node's range. -/
theorem c1_interior_range_cover :
    (∀ (bmin bmax : Nat) (cs : List ChildPtr), cs ≠ [] →
      (btree_node_interior_verify bmin bmax cs = true ↔ children_cover bmin bmax cs)) ∧
    (∀ (bmin bmax : Nat) (l1 old mid l2 : List ChildPtr), old ≠ [] → mid ≠ [] →
      (∀ a b, old.head? = some a → mid.head? = some b → b.minKey = a.minKey) →
      (∀ a b, old.getLast? = some a → mid.getLast? = some b → b.maxKey = a.maxKey) →
      List.Chain' childAfter mid →
      children_cover bmin bmax (l1 ++ old ++ l2) →
      children_cover bmin bmax (l1 ++ mid ++ l2)) ∧
    (∀ (n n1 n2 : SNode), 2 ≤ n.keys.length → (∀ k ∈ n.keys, 1 ≤ k.u64s) →
      btree_split_node n = some (n1, n2) →
      children_cover n.minKey n.maxKey
        [⟨n1.minKey, n1.maxKey⟩, ⟨n2.minKey, n2.maxKey⟩]) := by
  refine ⟨?_, ?_, ?_⟩
  · intro bmin bmax cs hne
    cases cs with
    | nil => exact absurd rfl hne
    | cons c cs2 =>
      rw [btree_node_interior_verify, interior_verify_go_iff]
      unfold children_cover
      constructor
      · rintro ⟨h1, h2, h3⟩
        refine ⟨?_, h2, h3⟩
        intro d hd
        rw [List.head?_cons] at hd
        cases hd
        exact h1
      · rintro ⟨h1, h2, h3⟩
        exact ⟨h1 c rfl, h2, h3⟩
  · intro bmin bmax l1 old mid l2 hold hmid hmin hmax hchain hcov
    exact children_cover_replace bmin bmax l1 old mid l2 hold hmid hmin hmax hchain hcov
  · intro n n1 n2 h2 h1 hsplit
    obtain ⟨n1', n2', p, hsplit', hk1, hk2, hne1, hne2, hlast, hmn, hmx, h2mn, h2mx⟩ :=
      split_node_spec n h2 h1
    rw [hsplit'] at hsplit
    rw [Option.some.injEq, Prod.mk.injEq] at hsplit
    obtain ⟨rfl, rfl⟩ := hsplit
    refine ⟨?_, ?_, ?_⟩
    · intro d hd
      rw [List.head?_cons] at hd
      cases hd
      exact hmn
    · intro d hd
      simp only [List.getLast?_cons_cons, List.getLast?_singleton, Option.some.injEq] at hd
      rw [← hd]
      exact h2mx
    · refine List.chain'_pair.mpr ?_
      unfold childAfter
      simp only
      omega

theorem c1_interior_range_cover_witness :
    ([(⟨0, 2⟩ : ChildPtr), ⟨3, 5⟩] ≠ ([] : List ChildPtr)) ∧
    children_cover 0 5 [⟨0, 2⟩, ⟨3, 5⟩] :=
  ⟨by decide,
   (c1_interior_range_cover.1 0 5 [⟨0, 2⟩, ⟨3, 5⟩] (by decide)).mp (by decide)⟩

/-- Live-key accounting of a node (`b->nr`): live u64s, number of packed keys
and number of keys stored unpacked. -/
structure NodeNr where
  live_u64s : Nat
  packed_keys : Nat
  unpacked_keys : Nat
deriving DecidableEq

/-- The signed arithmetic of `btree_node_u64s_with_format`
(btree_update_interior.c:93-108): the node's live u64s adjusted by the
per-key width delta of the new format against the current one, for packed
keys, and against `BKEY_U64s` for unpacked keys.  The C code computes the
delta in `ssize_t` with `int` promotion; `bkeyU64s` stands for the constant
`BKEY_U64s`. -/
def btree_node_u64s_with_format (bkeyU64s : Nat) (nr : NodeNr)
    (old_key_u64s new_key_u64s : Nat) : Int :=
  (nr.live_u64s : Int) +
    (((new_key_u64s : Int) - (old_key_u64s : Int)) * (nr.packed_keys : Int) +
     ((new_key_u64s : Int) - (bkeyU64s : Int)) * (nr.unpacked_keys : Int))

/-- Modelled from the spec: `__vstruct_bytes(struct btree_node, u64s)` and
`btree_bytes(c)` are outside src; per the spec the fit test of
`bch2_btree_node_format_fits` (btree_update_interior.c:116-122) compares the
re-packed keys' bytes, eight per u64, against the block size. -/
def bch2_btree_node_format_fits (blockSize bkeyU64s : Nat) (nr : NodeNr)
    (old_key_u64s new_key_u64s : Nat) : Bool :=
  decide (btree_node_u64s_with_format bkeyU64s nr old_key_u64s new_key_u64s * 8
    < (blockSize : Int))

/-- The quantity named `total_u64s_under(F)` by the spec: the node's live
u64s adjusted by the per-key width delta of `F` versus the node's current
format.  This definition follows the spec sentence, not the source. -/
def total_u64s_under (bkeyU64s : Nat) (nr : NodeNr)
    (old_key_u64s new_key_u64s : Nat) : Int :=
  (nr.live_u64s : Int)
    + ((new_key_u64s : Int) - (old_key_u64s : Int)) * (nr.packed_keys : Int)
    + ((new_key_u64s : Int) - (bkeyU64s : Int)) * (nr.unpacked_keys : Int)

/-- C4: assuming all keys pack under the candidate format (and the node's
accounting is consistent, i.e. the adjusted u64s count is non-negative, which
is the `BUG_ON` at btree_update_interior.c:105), the format fit test returns
true if and only if `total_u64s_under(F) · 8 < block_size`. -/
theorem c4_format_fits (blockSize bkeyU64s : Nat) (nr : NodeNr)
    (old_key_u64s new_key_u64s : Nat)
    (_hnonneg : 0 ≤ btree_node_u64s_with_format bkeyU64s nr old_key_u64s new_key_u64s) :
    (bch2_btree_node_format_fits blockSize bkeyU64s nr old_key_u64s new_key_u64s = true ↔
      total_u64s_under bkeyU64s nr old_key_u64s new_key_u64s * 8 < (blockSize : Int)) := by
  unfold bch2_btree_node_format_fits btree_node_u64s_with_format total_u64s_under
  rw [decide_eq_true_iff]
  constructor <;> intro h <;> [skip; skip] <;> linarith [h]

theorem c4_format_fits_witness :
    (0 : Int) ≤ btree_node_u64s_with_format 5 ⟨100, 10, 2⟩ 4 3 ∧
    (bch2_btree_node_format_fits 4096 5 ⟨100, 10, 2⟩ 4 3 = true ↔
      total_u64s_under 5 ⟨100, 10, 2⟩ 4 3 * 8 < (4096 : Int)) :=
  ⟨by decide, c4_format_fits 4096 5 ⟨100, 10, 2⟩ 4 3 (by decide)⟩

/-- The sibling-size computation of `__bch2_foreground_maybe_merge`
(btree_update_interior.c:1528-1543): starting from the union-format size `u`,
apply the hysteresis bias when `u` exceeds `hyst =
BTREE_FOREGROUND_MERGE_HYSTERESIS(c)`, cap at `maxu = btree_max_u64s(c)`,
store the result in `b->sib_u64s[sib]`, and proceed with the merge only when
the stored value is at most `thr = BTREE_FOREGROUND_MERGE_THRESHOLD(c)`.
Returns (cached value, whether the merge proceeds). -/
def foreground_merge_sib_u64s (u hyst maxu : Nat) : Nat :=
  min (if hyst < u then (u - hyst) / 2 + hyst else u) maxu

def foreground_merge_proceeds (u hyst maxu thr : Nat) : Bool :=
  decide (foreground_merge_sib_u64s u hyst maxu ≤ thr)

/-- C9: the merge proceeds exactly when the cached value is at most the
threshold, and when `u` exceeds the hysteresis bound the cached value is
`(u - HYSTERESIS)/2 + HYSTERESIS` biased back toward the midpoint, capped at
the node's maximum u64s. -/
theorem c9_merge_hysteresis (u hyst maxu thr : Nat) :
    (foreground_merge_proceeds u hyst maxu thr = true ↔
      foreground_merge_sib_u64s u hyst maxu ≤ thr) ∧
    (hyst < u →
      foreground_merge_sib_u64s u hyst maxu = min ((u - hyst) / 2 + hyst) maxu) ∧
    (u ≤ hyst → foreground_merge_sib_u64s u hyst maxu = min u maxu) := by
  refine ⟨?_, ?_, ?_⟩
  · unfold foreground_merge_proceeds
    exact decide_eq_true_iff
  · intro h
    unfold foreground_merge_sib_u64s
    rw [if_pos h]
  · intro h
    unfold foreground_merge_sib_u64s
    rw [if_neg (by omega)]

theorem c9_merge_hysteresis_witness :
    (foreground_merge_proceeds 250 200 300 150 = true ↔
      foreground_merge_sib_u64s 250 200 300 ≤ 150) ∧
    (200 < 250 →
      foreground_merge_sib_u64s 250 200 300 = min ((250 - 200) / 2 + 200) 300) ∧
    (250 ≤ 200 → foreground_merge_sib_u64s 250 200 300 = min 250 300) :=
  c9_merge_hysteresis 250 200 300 150

/-- A node as the root table sees it: its cache identity, its level and its
dying flag. -/
structure RootNode where
  id : Nat
  level : Nat
  dying : Bool
deriving DecidableEq

/-- The in-memory root table and cache LRU state relevant to
`bch2_btree_set_root_inmem`. -/
structure RootState where
  root : Option RootNode
  reapable : List Nat
deriving DecidableEq

/-- The effect of `bch2_btree_set_root_inmem`
(btree_update_interior.c:952-968): `list_del_init(&b->list)` removes the new
root from the cache's reapable list, and the `BUG_ON` at lines 960-962
refuses to install over an existing root of greater level or one not yet
marked dying.  `none` models the `BUG_ON` firing. -/
def bch2_btree_set_root_inmem (s : RootState) (b : RootNode) : Option RootState :=
  match s.root with
  | none => some { root := some b, reapable := s.reapable.filter (fun i => i ≠ b.id) }
  | some r =>
    if b.level < r.level || !r.dying then none
    else some { root := some b, reapable := s.reapable.filter (fun i => i ≠ b.id) }

/-- C10: whenever a new root is successfully installed over an existing one,
the new root's level is at least the old root's level and the old root was
already marked dying; installing a root also removes it from the cache's
reapable list, so roots are never reaped. -/
theorem c10_root_level_monotone (s : RootState) (b : RootNode) (s2 : RootState)
    (h : bch2_btree_set_root_inmem s b = some s2) :
    (∀ r, s.root = some r → r.level ≤ b.level ∧ r.dying = true) ∧
    s2.root = some b ∧
    s2.reapable = s.reapable.filter (fun i => i ≠ b.id) ∧
    b.id ∉ s2.reapable := by
  rcases s with ⟨sroot, sreap⟩
  cases sroot with
  | none =>
    simp only [bch2_btree_set_root_inmem, Option.some.injEq] at h
    subst h
    refine ⟨?_, rfl, rfl, ?_⟩
    · intro r hcontra
      cases hcontra
    · intro hmem
      have := List.of_mem_filter hmem
      simp at this
  | some r =>
    simp only [bch2_btree_set_root_inmem] at h
    by_cases hc : (decide (b.level < r.level) || !r.dying) = true
    · rw [if_pos hc] at h
      cases h
    · rw [if_neg hc] at h
      rw [Option.some.injEq] at h
      subst h
      simp only [Bool.or_eq_true, decide_eq_true_eq, Bool.not_eq_true', not_or] at hc
      refine ⟨?_, rfl, rfl, ?_⟩
      · intro r2 hr2
        simp only [Option.some.injEq] at hr2
        subst hr2
        exact ⟨Nat.le_of_not_lt hc.1, by simpa using hc.2⟩
      · intro hmem
        have := List.of_mem_filter hmem
        simp at this

theorem c10_root_level_monotone_witness :
    bch2_btree_set_root_inmem ⟨some ⟨7, 1, true⟩, [7, 9, 3]⟩ ⟨9, 2, false⟩ =
      some ⟨some ⟨9, 2, false⟩, [7, 3]⟩ ∧
    ((∀ r, (some (RootNode.mk 7 1 true) = some r) → r.level ≤ 2 ∧ r.dying = true) ∧
     (some (RootNode.mk 9 2 false) = some (RootNode.mk 9 2 false)) ∧
     ([7, 3] = [7, 9, 3].filter (fun i => i ≠ 9)) ∧
     (9 ∉ [7, 3])) :=
  ⟨by decide,
   c10_root_level_monotone ⟨some ⟨7, 1, true⟩, [7, 9, 3]⟩ ⟨9, 2, false⟩
     ⟨some ⟨9, 2, false⟩, [7, 3]⟩ (by decide)⟩

/-- Update modes, mirroring `enum btree_update_mode`:
`BTREE_INTERIOR_NO_UPDATE`, `UPDATING_NODE`, `UPDATING_ROOT`,
`UPDATING_AS`. -/
inductive UMode
  | noUpdate
  | updatingNode
  | updatingRoot
  | updatingAs
deriving DecidableEq

/-- The fields of `struct btree_update` touched by reparenting: its mode,
its parent-node reference `as->b` (a node id), and its journal pin,
abstracted to the pinned sequence number (none = not pinned). -/
structure UpdateRec where
  mode : UMode
  b : Option Nat
  pin : Option Nat
deriving DecidableEq

/-- Modelled from the spec: `bch2_journal_pin_copy` and
`bch2_journal_pin_drop` are outside src; per the spec the copy transfers the
pin onto the destination with oldest-wins semantics, i.e. the destination
ends up pinning the older (smaller) sequence number of the two. -/
def journal_pin_copy (dst src : Option Nat) : Option Nat :=
  match dst, src with
  | d, none => d
  | none, some s => some s
  | some d, some s => some (min d s)

/-- `btree_update_reparent` (btree_update_interior.c:673-694): clear the
child's parent-node reference, set its mode to `UPDATING_AS`, copy its
journal pin onto the parent update's pin, then drop the child's pin.
Returns (updated parent update, updated child). -/
def btree_update_reparent (u child : UpdateRec) : UpdateRec × UpdateRec :=
  ({ u with pin := journal_pin_copy u.pin child.pin },
   { child with b := none, mode := UMode.updatingAs, pin := none })

/-- The `write_blocked` loop of `bch2_btree_interior_update_will_free_node`
(btree_update_interior.c:819-828): each blocked update is unlinked from the
node's `write_blocked` list and reparented onto `as`.  Returns (the update
`as` after absorbing all pins, the reparented children in order); the node's
`write_blocked` list is left empty. -/
def will_free_reparent (u : UpdateRec) : List UpdateRec → UpdateRec × List UpdateRec
  | [] => (u, [])
  | p :: ps =>
    let r := btree_update_reparent u p
    let rest := will_free_reparent r.1 ps
    (rest.1, r.2 :: rest.2)

theorem will_free_reparent_fst (blocked : List UpdateRec) :
    ∀ u : UpdateRec,
      (will_free_reparent u blocked).1 =
        { u with pin := List.foldl journal_pin_copy u.pin (blocked.map UpdateRec.pin) } := by
  induction blocked with
  | nil => intro u; rfl
  | cons p ps ih =>
    intro u
    show (will_free_reparent { u with pin := journal_pin_copy u.pin p.pin } ps).1 = _
    rw [ih]
    rfl

theorem will_free_reparent_snd (blocked : List UpdateRec) :
    ∀ u : UpdateRec,
      (will_free_reparent u blocked).2 =
        blocked.map (fun p => { p with b := none, mode := UMode.updatingAs, pin := none }) := by
  induction blocked with
  | nil => intro u; rfl
  | cons p ps ih =>
    intro u
    show _ :: (will_free_reparent _ ps).2 = _
    rw [ih]
    rfl

theorem pinfold_none (l : List (Option Nat)) :
    ∀ d, List.foldl journal_pin_copy d l = none ↔ (d = none ∧ ∀ x ∈ l, x = none) := by
  induction l with
  | nil => intro d; simp
  | cons x l ih =>
    intro d
    rw [List.foldl_cons, ih]
    have hc : journal_pin_copy d x = none ↔ (d = none ∧ x = none) := by
      cases d <;> cases x <;> simp [journal_pin_copy]
    rw [hc]
    constructor
    · rintro ⟨⟨h1, h2⟩, h3⟩
      exact ⟨h1, by intro y hy; rcases List.mem_cons.mp hy with rfl | hy2; exact h2; exact h3 y hy2⟩
    · rintro ⟨h1, h2⟩
      exact ⟨⟨h1, h2 x (by simp)⟩, fun y hy => h2 y (by simp [hy])⟩

theorem pinfold_le (l : List (Option Nat)) :
    ∀ d s, List.foldl journal_pin_copy d l = some s →
      (∀ t, d = some t → s ≤ t) ∧ (∀ x ∈ l, ∀ t, x = some t → s ≤ t) := by
  induction l with
  | nil =>
    intro d s h
    rw [List.foldl_nil] at h
    refine ⟨?_, by simp⟩
    intro t ht
    rw [ht] at h
    cases h
    exact Nat.le_refl _
  | cons x l ih =>
    intro d s h
    rw [List.foldl_cons] at h
    obtain ⟨hd, hl⟩ := ih (journal_pin_copy d x) s h
    have hdx : (∀ t, d = some t → s ≤ t) ∧ (∀ t, x = some t → s ≤ t) := by
      cases d with
      | none =>
        cases x with
        | none => exact ⟨by simp, by simp⟩
        | some xv =>
          refine ⟨by simp, ?_⟩
          intro t ht
          cases ht
          exact hd xv rfl
      | some dv =>
        cases x with
        | none =>
          refine ⟨?_, by simp⟩
          intro t ht
          cases ht
          exact hd dv rfl
        | some xv =>
          have hm := hd (min dv xv) rfl
          constructor
          · intro t ht
            cases ht
            exact Nat.le_trans hm (Nat.min_le_left _ _)
          · intro t ht
            cases ht
            exact Nat.le_trans hm (Nat.min_le_right _ _)
    refine ⟨hdx.1, ?_⟩
    intro y hy t ht
    rcases List.mem_cons.mp hy with rfl | hy2
    · exact hdx.2 t ht
    · exact hl y hy2 t ht

theorem pinfold_mem (l : List (Option Nat)) :
    ∀ d s, List.foldl journal_pin_copy d l = some s →
      d = some s ∨ ∃ x ∈ l, x = some s := by
  induction l with
  | nil =>
    intro d s h
    rw [List.foldl_nil] at h
    exact Or.inl h
  | cons x l ih =>
    intro d s h
    rw [List.foldl_cons] at h
    rcases ih (journal_pin_copy d x) s h with hc | ⟨y, hy, hys⟩
    · cases d with
      | none =>
        cases x with
        | none => exact Or.inl hc
        | some xv => exact Or.inr ⟨some xv, by simp, hc⟩
      | some dv =>
        cases x with
        | none => exact Or.inl hc
        | some xv =>
          simp only [journal_pin_copy, Option.some.injEq] at hc
          rcases Nat.le_total dv xv with h1 | h1
          · exact Or.inl (by rw [← hc, Nat.min_eq_left h1])
          · exact Or.inr ⟨some xv, by simp, by rw [← hc, Nat.min_eq_right h1]⟩
    · exact Or.inr ⟨y, by simp [hy], hys⟩

/-- C6: when an update `U` calls `will_free_node(b)` and `b` has a non-empty
`write_blocked` list of older updates, each of them is redirected: its mode
becomes `UPDATING_AS`, its parent-node reference is cleared, its journal pin
is copied onto `U`'s pin with oldest-wins semantics (the resulting pin of
`U` is at most every transferred pin, and is one of the input pins) and then
dropped, and the node's `write_blocked` list is emptied. -/
theorem c6_will_free_reparent (u : UpdateRec) (blocked : List UpdateRec)
    (_hne : blocked ≠ []) :
    (will_free_reparent u blocked).2.length = blocked.length ∧
    (∀ p2 ∈ (will_free_reparent u blocked).2,
      p2.mode = UMode.updatingAs ∧ p2.b = none ∧ p2.pin = none) ∧
    (will_free_reparent u blocked).1.mode = u.mode ∧
    (will_free_reparent u blocked).1.b = u.b ∧
    (will_free_reparent u blocked).1.pin =
      List.foldl journal_pin_copy u.pin (blocked.map UpdateRec.pin) ∧
    ((will_free_reparent u blocked).1.pin = none ↔
      (u.pin = none ∧ ∀ p ∈ blocked, p.pin = none)) ∧
    (∀ s, (will_free_reparent u blocked).1.pin = some s →
      (∀ t, u.pin = some t → s ≤ t) ∧
      (∀ p ∈ blocked, ∀ t, p.pin = some t → s ≤ t) ∧
      (u.pin = some s ∨ ∃ p ∈ blocked, p.pin = some s)) := by
  have hfst := will_free_reparent_fst blocked u
  have hsnd := will_free_reparent_snd blocked u
  have hpin : (will_free_reparent u blocked).1.pin =
      List.foldl journal_pin_copy u.pin (blocked.map UpdateRec.pin) := by
    rw [hfst]
  refine ⟨?_, ?_, ?_, ?_, hpin, ?_, ?_⟩
  · rw [hsnd, List.length_map]
  · intro p2 hp2
    rw [hsnd] at hp2
    obtain ⟨p, _, hpeq⟩ := List.mem_map.mp hp2
    rw [← hpeq]
    exact ⟨rfl, rfl, rfl⟩
  · rw [hfst]
  · rw [hfst]
  · rw [hpin, pinfold_none]
    constructor
    · rintro ⟨h1, h2⟩
      refine ⟨h1, ?_⟩
      intro p hp
      exact h2 p.pin (List.mem_map.mpr ⟨p, hp, rfl⟩)
    · rintro ⟨h1, h2⟩
      refine ⟨h1, ?_⟩
      intro x hx
      obtain ⟨p, hp, hpeq⟩ := List.mem_map.mp hx
      rw [← hpeq]
      exact h2 p hp
  · intro s hs
    rw [hpin] at hs
    obtain ⟨h1, h2⟩ := pinfold_le (blocked.map UpdateRec.pin) u.pin s hs
    have h3 := pinfold_mem (blocked.map UpdateRec.pin) u.pin s hs
    refine ⟨h1, ?_, ?_⟩
    · intro p hp t ht
      exact h2 p.pin (List.mem_map.mpr ⟨p, hp, rfl⟩) t ht
    · rcases h3 with h3 | ⟨x, hx, hxs⟩
      · exact Or.inl h3
      · obtain ⟨p, hp, hpeq⟩ := List.mem_map.mp hx
        exact Or.inr ⟨p, hp, by rw [hpeq]; exact hxs⟩

/-- Concrete reparenting scenario: `U` pins sequence 10 and three blocked
updates pin 5, nothing and 12. -/
def uExample : UpdateRec := ⟨UMode.updatingNode, some 3, some 10⟩

def blockedExample : List UpdateRec :=
  [⟨UMode.updatingNode, some 3, some 5⟩,
   ⟨UMode.updatingNode, some 3, none⟩,
   ⟨UMode.updatingNode, some 3, some 12⟩]

theorem c6_will_free_reparent_witness :
    blockedExample ≠ [] ∧
    ((will_free_reparent uExample blockedExample).2.length = blockedExample.length ∧
     (∀ p2 ∈ (will_free_reparent uExample blockedExample).2,
       p2.mode = UMode.updatingAs ∧ p2.b = none ∧ p2.pin = none) ∧
     (will_free_reparent uExample blockedExample).1.mode = uExample.mode ∧
     (will_free_reparent uExample blockedExample).1.b = uExample.b ∧
     (will_free_reparent uExample blockedExample).1.pin =
       List.foldl journal_pin_copy uExample.pin (blockedExample.map UpdateRec.pin) ∧
     ((will_free_reparent uExample blockedExample).1.pin = none ↔
       (uExample.pin = none ∧ ∀ p ∈ blockedExample, p.pin = none)) ∧
     (∀ s, (will_free_reparent uExample blockedExample).1.pin = some s →
       (∀ t, uExample.pin = some t → s ≤ t) ∧
       (∀ p ∈ blockedExample, ∀ t, p.pin = some t → s ≤ t) ∧
       (uExample.pin = some s ∨ ∃ p ∈ blockedExample, p.pin = some s))) :=
  ⟨by decide, c6_will_free_reparent uExample blockedExample (by decide)⟩

/-- Error codes as the kernel returns them (negative errno). -/
def eAGAIN : Int := -11

def eINTR : Int := -4

/-- Results of the collaborator calls made by `bch2_btree_update_start`, as
an oracle environment: 0 means success, a negative value the error
returned. -/
structure StartEnv where
  journal_error : Int
  preres_nonblock : Int
  preres_block : Int
  relock_ok : Bool
  disk_res : Int
  reserve_get : Int
deriving DecidableEq

/-- Resource state threaded through `bch2_btree_update_start`:
whether the mempool-allocated update record is still live (allocated and not
freed), which reservations are held, whether preallocated nodes are held,
whether the transaction's locks were released, and whether the update was
linked into `btree_interior_update_list`. -/
structure StartState where
  update_alive : Bool
  preres_held : Bool
  disk_res_held : Bool
  nodes_held : Bool
  trans_unlocked : Bool
  linked : Bool
deriving DecidableEq

def startState0 : StartState :=
  ⟨false, false, false, false, false, false⟩

/-- `bch2_btree_update_free` (btree_update_interior.c:453-473): puts the
journal pre-reservation, drops the journal pin, puts the disk reservation,
returns the preallocated nodes, unlinks and frees the update record. -/
def bch2_btree_update_free (s : StartState) : StartState :=
  { s with update_alive := false, preres_held := false, disk_res_held := false,
           nodes_held := false, linked := false }

inductive StartResult
  | ok
  | err (e : Int)
deriving DecidableEq

/-- The tail of `bch2_btree_update_start` after the journal pre-reservation
is settled (btree_update_interior.c:929-947): disk reservation, node
reserve, linking; any failure goes to the `err` label which calls
`bch2_btree_update_free`. -/
def update_start_tail (env : StartEnv) (s : StartState) : StartResult × StartState :=
  if env.disk_res ≠ 0 then
    (StartResult.err env.disk_res, bch2_btree_update_free s)
  else
    let s1 : StartState := { s with disk_res_held := true }
    if env.reserve_get ≠ 0 then
      (StartResult.err env.reserve_get, bch2_btree_update_free s1)
    else
      (StartResult.ok, { s1 with nodes_held := true, linked := true })

/-- `bch2_btree_update_start` (btree_update_interior.c:874-948): fail fast on
journal error (before the update record is allocated); allocate the record;
take the journal pre-reservation non-blocking, and on `-EAGAIN` either return
`-EINTR` when the caller is `NOUNLOCK`, or unlock the transaction, take the
reservation blocking (returning its error if it fails), relock and return
`-EINTR` via the `err` label if relocking fails; then reserve disk space and
nodes.  The two returns at lines 913 and 921 do not pass through
`bch2_btree_update_free`. -/
def bch2_btree_update_start (env : StartEnv) (nounlock : Bool) :
    StartResult × StartState :=
  if env.journal_error ≠ 0 then
    (StartResult.err env.journal_error, startState0)
  else
    let s : StartState := { startState0 with update_alive := true }
    if env.preres_nonblock = eAGAIN then
      if nounlock then
        (StartResult.err eINTR, s)
      else
        let s1 : StartState := { s with trans_unlocked := true }
        if env.preres_block ≠ 0 then
          (StartResult.err env.preres_block, s1)
        else
          let s2 : StartState := { s1 with preres_held := true }
          if env.relock_ok then
            update_start_tail env s2
          else
            (StartResult.err eINTR, bch2_btree_update_free s2)
    else
      update_start_tail env { s with preres_held := decide (env.preres_nonblock = 0) }

/-- C7: `start` fails immediately with the journal's error when the journal
is in error state; otherwise it first attempts the pre-reservation
non-blocking (no unlocking on that path), and on `-EAGAIN` it returns
`-EINTR` (Restart) without unlocking when the caller is `NOUNLOCK`, else it
releases the transaction locks, takes the reservation blocking (propagating
its error), and returns `-EINTR` when the locks cannot be re-acquired. -/
theorem c7_update_start_error_paths (env : StartEnv) (nounlock : Bool) :
    (env.journal_error ≠ 0 →
      bch2_btree_update_start env nounlock =
        (StartResult.err env.journal_error, startState0)) ∧
    (env.journal_error = 0 → env.preres_nonblock = eAGAIN →
      ((nounlock = true →
        (bch2_btree_update_start env nounlock).1 = StartResult.err eINTR ∧
        (bch2_btree_update_start env nounlock).2.trans_unlocked = false) ∧
       (nounlock = false →
        (bch2_btree_update_start env nounlock).2.trans_unlocked = true ∧
        (env.preres_block ≠ 0 →
          (bch2_btree_update_start env nounlock).1 = StartResult.err env.preres_block) ∧
        (env.preres_block = 0 → env.relock_ok = false →
          (bch2_btree_update_start env nounlock).1 = StartResult.err eINTR)))) ∧
    (env.journal_error = 0 → env.preres_nonblock = 0 →
      (bch2_btree_update_start env nounlock).2.trans_unlocked = false) := by
  refine ⟨?_, ?_, ?_⟩
  · intro hj
    unfold bch2_btree_update_start
    rw [if_pos hj]
  · intro hj hag
    have hj2 : ¬ env.journal_error ≠ 0 := by simp [hj]
    constructor
    · intro hnl
      subst hnl
      unfold bch2_btree_update_start
      rw [if_neg hj2, if_pos hag, if_pos rfl]
      exact ⟨rfl, rfl⟩
    · intro hnl
      subst hnl
      unfold bch2_btree_update_start
      rw [if_neg hj2, if_pos hag, if_neg (by simp)]
      by_cases hb : env.preres_block ≠ 0
      · rw [if_pos hb]
        exact ⟨rfl, fun _ => rfl, fun h2 _ => absurd h2 hb⟩
      · rw [if_neg hb]
        by_cases hrel : env.relock_ok
        · rw [if_pos hrel]
          refine ⟨?_, fun h2 => absurd h2 hb, fun _ h2 => by rw [h2] at hrel; cases hrel⟩
          unfold update_start_tail bch2_btree_update_free
          by_cases hd : env.disk_res ≠ 0
          · rw [if_pos hd]
          · rw [if_neg hd]
            by_cases hr : env.reserve_get ≠ 0
            · rw [if_pos hr]
            · rw [if_neg hr]
        · rw [if_neg hrel]
          refine ⟨rfl, fun h2 => absurd h2 hb, fun _ _ => rfl⟩
  · intro hj hok
    have hj2 : ¬ env.journal_error ≠ 0 := by simp [hj]
    have hag : ¬ env.preres_nonblock = eAGAIN := by
      rw [hok]
      intro habs
      cases habs
    unfold bch2_btree_update_start
    rw [if_neg hj2, if_neg hag]
    unfold update_start_tail bch2_btree_update_free
    by_cases hd : env.disk_res ≠ 0
    · rw [if_pos hd]
      rfl
    · rw [if_neg hd]
      by_cases hr : env.reserve_get ≠ 0
      · rw [if_pos hr]
        rfl
      · rw [if_neg hr]
        rfl

theorem c7_update_start_error_paths_witness :
    ((-5 : Int) ≠ 0 →
      bch2_btree_update_start ⟨-5, 0, 0, true, 0, 0⟩ false =
        (StartResult.err (-5), startState0)) ∧
    ((-5 : Int) = 0 → (0 : Int) = eAGAIN →
      ((false = true →
        (bch2_btree_update_start ⟨-5, 0, 0, true, 0, 0⟩ false).1 = StartResult.err eINTR ∧
        (bch2_btree_update_start ⟨-5, 0, 0, true, 0, 0⟩ false).2.trans_unlocked = false) ∧
       (false = false →
        (bch2_btree_update_start ⟨-5, 0, 0, true, 0, 0⟩ false).2.trans_unlocked = true ∧
        ((0 : Int) ≠ 0 →
          (bch2_btree_update_start ⟨-5, 0, 0, true, 0, 0⟩ false).1 = StartResult.err 0) ∧
        ((0 : Int) = 0 → true = false →
          (bch2_btree_update_start ⟨-5, 0, 0, true, 0, 0⟩ false).1 = StartResult.err eINTR)))) ∧
    ((-5 : Int) = 0 → (0 : Int) = 0 →
      (bch2_btree_update_start ⟨-5, 0, 0, true, 0, 0⟩ false).2.trans_unlocked = false) :=
  c7_update_start_error_paths ⟨-5, 0, 0, true, 0, 0⟩ false

/-- C8, divergence witness: on the `NOUNLOCK` + `-EAGAIN` path (line 913) and
on the blocking pre-reservation failure path (line 921) the update record
stays allocated - `bch2_btree_update_free` is never called - while every
error exit that goes through the `err` label frees it.  The third conjunct
shows a disk-reservation failure, which does take the `err` label, leaving no
resources behind. -/
theorem c8_update_record_leak :
    bch2_btree_update_start ⟨0, eAGAIN, 0, true, 0, 0⟩ true =
      (StartResult.err eINTR, { startState0 with update_alive := true }) ∧
    (bch2_btree_update_start ⟨0, eAGAIN, eINTR, true, 0, 0⟩ false).1 =
      StartResult.err eINTR ∧
    (bch2_btree_update_start ⟨0, eAGAIN, eINTR, true, 0, 0⟩ false).2.update_alive = true ∧
    bch2_btree_update_start ⟨0, 0, 0, true, -28, 0⟩ false =
      (StartResult.err (-28),
       { startState0 with trans_unlocked := false }) := by
  refine ⟨by decide, by decide, by decide, by decide⟩

/-- The `will_make_reachable` word of a new node: zero, a tagged pointer to
the owning update with the ref-held bit set (`1UL | (unsigned long) as`), or
the plain pointer after the bit was cleared. -/
inductive WMRState
  | clear
  | taggedRef
  | plainRef
deriving DecidableEq

/-- Lifecycle state of one new node and the closure reference it holds on
its owning update: the `will_make_reachable` word, whether
`bch2_btree_update_add_new_node` ran, whether the node's first write has
completed, whether `btree_update_drop_new_node` removed it, and how many
times the owning update's completion counter was decremented on this node's
behalf (`closure_put` calls). -/
structure NodeLife where
  wmr : WMRState
  added : Bool
  firstWriteDone : Bool
  droppedByFree : Bool
  closurePuts : Nat
deriving DecidableEq

def nodeLife0 : NodeLife :=
  ⟨WMRState.clear, false, false, false, 0⟩

/-- Atomic transitions on a new node's lifecycle state.

`add`: `bch2_btree_update_add_new_node` (btree_update_interior.c:731-747) on
a fresh node (`BUG_ON(b->will_make_reachable)`); takes a closure ref and
stores the tagged pointer.

`completeWrite`: the node's first write completion; modelled from the spec
(`bch2_btree_complete_write` is outside src): clears the ref-held bit by
compare-and-swap, and when the bit was set, puts the closure ref.

`dropNewNode`: `btree_update_drop_new_node` (btree_update_interior.c:752-783)
from `will_free_node`: `xchg` the whole word to zero; when the pointer was
zero it returns having changed nothing, and it puts the closure ref exactly
when the ref-held bit was still set.

`nodesWritten`: the clearing at btree_update_interior.c:596-603, whose
`BUG_ON(b->will_make_reachable != (unsigned long) as)` demands the bit
already cleared; zeroes the pointer without a put. -/
inductive NodeStep : NodeLife → NodeLife → Prop
  | add (s : NodeLife) (h1 : s.added = false) (h2 : s.wmr = WMRState.clear)
      (h3 : s.firstWriteDone = false) (h4 : s.droppedByFree = false) :
      NodeStep s { s with wmr := WMRState.taggedRef, added := true }
  | completeWrite (s : NodeLife) (hw : s.firstWriteDone = false) :
      NodeStep s
        { wmr := if s.wmr = WMRState.taggedRef then WMRState.plainRef else s.wmr,
          added := s.added,
          firstWriteDone := true,
          droppedByFree := s.droppedByFree,
          closurePuts := s.closurePuts + (if s.wmr = WMRState.taggedRef then 1 else 0) }
  | dropNewNode (s : NodeLife) (hs : s.wmr ≠ WMRState.clear)
      (hd : s.droppedByFree = false) :
      NodeStep s
        { wmr := WMRState.clear,
          added := s.added,
          firstWriteDone := s.firstWriteDone,
          droppedByFree := true,
          closurePuts := s.closurePuts + (if s.wmr = WMRState.taggedRef then 1 else 0) }
  | nodesWritten (s : NodeLife) (h : s.wmr = WMRState.plainRef) :
      NodeStep s { s with wmr := WMRState.clear }

/-- States reachable from a fresh node by interleaving the atomic
transitions. -/
def NodeReachable (s : NodeLife) : Prop :=
  Relation.ReflTransGen NodeStep nodeLife0 s

/-- The lifecycle invariant: the tagged back-reference is held exactly from
`add_new_node` until the first write completion or the drop, the pointer
implies the node was added, a plain (untagged) pointer means the first write
completed, and the completion counter was decremented exactly once when the
window was closed and never otherwise. -/
def nodeLifeInv (s : NodeLife) : Prop :=
  (s.wmr = WMRState.taggedRef ↔
    (s.added = true ∧ s.firstWriteDone = false ∧ s.droppedByFree = false)) ∧
  (s.wmr = WMRState.plainRef → (s.added = true ∧ s.firstWriteDone = true)) ∧
  (s.closurePuts =
    if s.added = true ∧ (s.firstWriteDone = true ∨ s.droppedByFree = true) then 1 else 0)

theorem nodeLifeInv_step (a b : NodeLife) (hinv : nodeLifeInv a) (hstep : NodeStep a b) :
    nodeLifeInv b := by
  cases hstep with
  | add ha1 ha2 ha3 ha4 =>
    obtain ⟨w, ad, fw, dr, cp⟩ := a
    simp only at ha1 ha2 ha3 ha4
    subst ha1
    subst ha2
    subst ha3
    subst ha4
    unfold nodeLifeInv at hinv ⊢
    simp_all
  | completeWrite hw =>
    obtain ⟨w, ad, fw, dr, cp⟩ := a
    simp only at hw
    subst hw
    unfold nodeLifeInv at hinv ⊢
    cases w <;> cases ad <;> cases dr <;> simp_all
  | dropNewNode hs hd =>
    obtain ⟨w, ad, fw, dr, cp⟩ := a
    simp only at hs hd
    subst hd
    unfold nodeLifeInv at hinv ⊢
    cases w <;> cases ad <;> cases fw <;> simp_all
  | nodesWritten h =>
    obtain ⟨w, ad, fw, dr, cp⟩ := a
    simp only at h
    subst h
    unfold nodeLifeInv at hinv ⊢
    cases ad <;> cases fw <;> cases dr <;> simp_all

/-- C2: in every reachable state of a new node's lifecycle, the tagged
(ref-held) back-reference is set exactly from `add_new_node` until the
node's first write completes or `will_free_node` drops it; the owning
update's completion counter is decremented at most once on the node's
behalf, and exactly once precisely when the node was added and the window
was closed by a write completion or a drop. -/
theorem c2_will_make_reachable_lifecycle (s : NodeLife) (hr : NodeReachable s) :
    (s.wmr = WMRState.taggedRef ↔
      (s.added = true ∧ s.firstWriteDone = false ∧ s.droppedByFree = false)) ∧
    s.closurePuts ≤ 1 ∧
    (s.closurePuts = 1 ↔
      (s.added = true ∧ (s.firstWriteDone = true ∨ s.droppedByFree = true))) := by
  have hinv : nodeLifeInv s := by
    induction hr with
    | refl =>
      unfold nodeLifeInv nodeLife0
      simp
    | tail _ hstep ih =>
      exact nodeLifeInv_step _ _ ih hstep
  obtain ⟨h1, _, h3⟩ := hinv
  refine ⟨h1, ?_, ?_⟩
  · rw [h3]
    split <;> omega
  · rw [h3]
    split
    · rename_i h
      simp [h]
    · rename_i h
      simp [h]

theorem c2_will_make_reachable_lifecycle_witness :
    NodeReachable ⟨WMRState.taggedRef, true, false, false, 0⟩ ∧
    (((⟨WMRState.taggedRef, true, false, false, 0⟩ : NodeLife).wmr = WMRState.taggedRef ↔
       ((true : Bool) = true ∧ (false : Bool) = false ∧ (false : Bool) = false)) ∧
     (0 : Nat) ≤ 1 ∧
     ((0 : Nat) = 1 ↔ ((true : Bool) = true ∧ ((false : Bool) = true ∨ (false : Bool) = true)))) :=
  have hr : NodeReachable ⟨WMRState.taggedRef, true, false, false, 0⟩ :=
    Relation.ReflTransGen.single (NodeStep.add nodeLife0 rfl rfl rfl rfl)
  ⟨hr, c2_will_make_reachable_lifecycle ⟨WMRState.taggedRef, true, false, false, 0⟩ hr⟩
